import Mathlib

/-!
Verification development for the pack-assistant repository.

The repository is a Tauri + Vue application.  The reviewed sources contain the
presentation layer (App.vue, ItemsList.vue, PackingResults.vue,
PackingVisualizer.vue); the Rust packing engine behind the `pack_items`
command is not part of the reviewed sources, so the engine is modelled from
the specification (sections 3, 4, 6 and 7 of spec.md); every such definition
carries a doc comment starting with "Modelled from the spec:".  All
presentation-layer functions are translated directly from the Vue sources.

Numbers are modelled by exact rational arithmetic (ℚ); all dimensions are in
centimeters and all weights in kilograms, as in the sources.
-/

/-- A 3-component vector of rationals.  Used both for positions inside a box
(interior coordinate frame, origin at the box corner) and for axis-aligned
sizes (x along the box's length axis, y along width, z along height). -/
structure V3 where
  x : ℚ
  y : ℚ
  z : ℚ
deriving DecidableEq

/-- Componentwise order on `V3`. -/
def V3.le (a b : V3) : Prop := a.x ≤ b.x ∧ a.y ≤ b.y ∧ a.z ≤ b.z

instance (a b : V3) : Decidable (V3.le a b) := by unfold V3.le; infer_instance

/-- Componentwise maximum of two vectors. -/
def V3.sup (a b : V3) : V3 := ⟨max a.x b.x, max a.y b.y, max a.z b.z⟩

/-- An item to pack: the fields of the `Item` interface shared by App.vue and
the other components (the optional display-only `position`/`box_index`
annotations are omitted). -/
structure Item where
  id : String
  destination : String
  length : ℚ
  width : ℚ
  height : ℚ
  weight : ℚ
deriving DecidableEq

/-- Modelled from the spec: a destination's size rule (§3): either a single
symmetric bound on every outer edge, or an asymmetric pair where the length
axis has its own limit and the two cross axes share one. -/
inductive SizeRule where
  | symmetric (maxSide : ℚ)
  | asymmetric (maxLength : ℚ) (maxCrossSide : ℚ)
deriving DecidableEq

/-- Modelled from the spec: a destination profile (§3): size rule plus the
weight limit (kg, including cardboard). -/
structure DestinationProfile where
  rule : SizeRule
  maxWeight : ℚ
deriving DecidableEq

/-- Modelled from the spec: the Destination Constraint Registry (§4.1),
with the limits of Table 1 of the repository README; the engine itself is
absent from the reviewed sources.  Unknown destinations yield `none`
(a caller error, §7 — no default profile). -/
def profile_of (destination : String) : Option DestinationProfile :=
  if destination = "Australia" then some ⟨.symmetric 63, 22⟩
  else if destination = "USA" then some ⟨.symmetric 63, 22⟩
  else if destination = "UK" then some ⟨.symmetric 63, 15⟩
  else if destination = "Germany" then some ⟨.symmetric 63, 22.5⟩
  else if destination = "Japan" then some ⟨.asymmetric 60 50, 40⟩
  else none

/-- Cardboard thickness in cm (Table 2 of the README; also shown in
PackingResults.vue's shipping info card). -/
def thicknessCm : ℚ := 0.6

/-- Cardboard unit weight in kg per square meter (Table 2 of the README). -/
def unitWeightKgPerM2 : ℚ := 0.54

/-- Modelled from the spec: outer dimensions of a box (§4.2):
interior plus twice the cardboard thickness on every axis. -/
def outer_dims (interior : V3) : V3 :=
  ⟨interior.x + 2 * thicknessCm, interior.y + 2 * thicknessCm, interior.z + 2 * thicknessCm⟩

/-- Modelled from the spec: outer surface area in m² (§4.2):
2×(L·W + L·H + W·H) in cm², divided by 10000. -/
def surface_area_m2 (d : V3) : ℚ := 2 * (d.x * d.y + d.x * d.z + d.y * d.z) / 10000

/-- Modelled from the spec: cardboard mass of a box with the given outer
dimensions (§4.2). -/
def cardboard_weight (outer : V3) : ℚ := surface_area_m2 outer * unitWeightKgPerM2

/-- Modelled from the spec: the largest interior bin the placement search may
use (§4.4, working-volume bound): the destination limit minus twice the
cardboard thickness on each axis. -/
def maxInterior (rule : SizeRule) : V3 :=
  match rule with
  | .symmetric s => ⟨s - 2 * thicknessCm, s - 2 * thicknessCm, s - 2 * thicknessCm⟩
  | .asymmetric len cross => ⟨len - 2 * thicknessCm, cross - 2 * thicknessCm, cross - 2 * thicknessCm⟩

/-- Modelled from the spec: whether outer dimensions respect a destination's
size rule (§3): symmetric profiles bound every edge by maxSide; asymmetric
profiles bound the length axis by maxLength and both cross axes by
maxCrossSide. -/
def sizeRuleOk (rule : SizeRule) (outer : V3) : Prop :=
  match rule with
  | .symmetric s => outer.x ≤ s ∧ outer.y ≤ s ∧ outer.z ≤ s
  | .asymmetric len cross => outer.x ≤ len ∧ outer.y ≤ cross ∧ outer.z ≤ cross

instance (rule : SizeRule) (outer : V3) : Decidable (sizeRuleOk rule outer) := by
  unfold sizeRuleOk; cases rule <;> infer_instance

/-- Modelled from the spec: the orientation policy (§4.4): for a symmetric
profile all 6 axis assignments of (length, width, height) are legal; for the
asymmetric profile only the two orientations keeping the item's length edge
on the box's length axis are legal (the other two edges may swap between the
cross axes). -/
def orientationsFor (rule : SizeRule) (it : Item) : List V3 :=
  match rule with
  | .symmetric _ =>
      [⟨it.length, it.width, it.height⟩, ⟨it.length, it.height, it.width⟩,
       ⟨it.width, it.length, it.height⟩, ⟨it.width, it.height, it.length⟩,
       ⟨it.height, it.length, it.width⟩, ⟨it.height, it.width, it.length⟩]
  | .asymmetric _ _ =>
      [⟨it.length, it.width, it.height⟩, ⟨it.length, it.height, it.width⟩]

/-- Modelled from the spec: a placement (§3): an item, the corner of the item
closest to the box origin, and the item's dimensions under the chosen
orientation. -/
structure Placement where
  item : Item
  pos : V3
  dims : V3
deriving DecidableEq

/-- The far corner of a placement (position plus oriented dimensions). -/
def Placement.far (p : Placement) : V3 :=
  ⟨p.pos.x + p.dims.x, p.pos.y + p.dims.y, p.pos.z + p.dims.z⟩

/-- Modelled from the spec: an axis-aligned box of size `dims` placed with
its near corner at `pos` lies fully within `[0,binx]×[0,biny]×[0,binz]`. -/
def inBounds (bin pos dims : V3) : Prop :=
  0 ≤ pos.x ∧ 0 ≤ pos.y ∧ 0 ≤ pos.z ∧
  pos.x + dims.x ≤ bin.x ∧ pos.y + dims.y ≤ bin.y ∧ pos.z + dims.z ≤ bin.z

instance (bin pos dims : V3) : Decidable (inBounds bin pos dims) := by
  unfold inBounds; infer_instance

/-- Modelled from the spec: the open-interval 3D overlap test (§3): two
placements overlap iff their open intervals intersect on all three axes;
touching faces do not overlap. -/
def overlaps (p q : Placement) : Prop :=
  p.pos.x < q.pos.x + q.dims.x ∧ q.pos.x < p.pos.x + p.dims.x ∧
  p.pos.y < q.pos.y + q.dims.y ∧ q.pos.y < p.pos.y + p.dims.y ∧
  p.pos.z < q.pos.z + q.dims.z ∧ q.pos.z < p.pos.z + p.dims.z

instance (p q : Placement) : Decidable (overlaps p q) := by
  unfold overlaps; infer_instance

/-- Sum of the weights of the items of a list of placements. -/
def totalWeight (placed : List Placement) : ℚ :=
  (placed.map (fun p => p.item.weight)).sum

/-- Modelled from the spec: the current trimmed bounding box of a list of
placements (§4.4): the componentwise maximum of all far corners (0 when
empty). -/
def bboxOf (placed : List Placement) : V3 :=
  placed.foldl (fun acc p => acc.sup p.far) ⟨0, 0, 0⟩

/-- Modelled from the spec: the weight admission rule (§4.4): current item
weights plus the candidate's weight plus the cardboard estimate for the
current bounding box grown to include the candidate must not exceed the
destination's weight limit. -/
def weightOk (maxW : ℚ) (placed : List Placement) (it : Item) (pos dims : V3) : Prop :=
  totalWeight placed + it.weight +
    cardboard_weight (outer_dims ((bboxOf placed).sup (Placement.far ⟨it, pos, dims⟩))) ≤ maxW

instance (maxW : ℚ) (placed : List Placement) (it : Item) (pos dims : V3) :
    Decidable (weightOk maxW placed it pos dims) := by
  unfold weightOk; infer_instance

/-- Modelled from the spec: the full admission test for placing item `it`
with oriented dimensions `dims` at anchor `pos` (§4.4): in bounds, no overlap
with any already placed item, and the weight admission rule. -/
def canPlaceAt (bin : V3) (maxW : ℚ) (placed : List Placement) (it : Item) (pos dims : V3) : Prop :=
  inBounds bin pos dims ∧
  (∀ q ∈ placed, ¬ overlaps ⟨it, pos, dims⟩ q) ∧
  weightOk maxW placed it pos dims

instance (bin : V3) (maxW : ℚ) (placed : List Placement) (it : Item) (pos dims : V3) :
    Decidable (canPlaceAt bin maxW placed it pos dims) := by
  unfold canPlaceAt; infer_instance

/-- Strict lexicographic order on anchors: ascending z, then y, then x
(§4.4: prefer resting on the floor, then toward the near-left corner). -/
def anchorBefore (a b : V3) : Prop :=
  a.z < b.z ∨ (a.z = b.z ∧ (a.y < b.y ∨ (a.y = b.y ∧ a.x < b.x)))

instance (a b : V3) : Decidable (anchorBefore a b) := by unfold anchorBefore; infer_instance

/-- Modelled from the spec: insert a candidate anchor into the anchor list
kept in the stable (z, y, x)-ascending order, discarding duplicates (§4.4). -/
def insertAnchor (a : V3) : List V3 → List V3
  | [] => [a]
  | b :: rest =>
    if a = b then b :: rest
    else if anchorBefore a b then a :: b :: rest
    else b :: insertAnchor a rest

/-- Modelled from the spec: try the given anchors in order for one oriented
candidate, returning the first admissible placement (§4.4). -/
def tryAnchors (bin : V3) (maxW : ℚ) (placed : List Placement) (it : Item) (dims : V3) :
    List V3 → Option Placement
  | [] => none
  | a :: rest =>
    if canPlaceAt bin maxW placed it a dims then some ⟨it, a, dims⟩
    else tryAnchors bin maxW placed it dims rest

/-- Modelled from the spec: try each allowed orientation over all anchors,
short-circuiting on the first success (§4.4, design note in §9). -/
def tryOrientList (bin : V3) (maxW : ℚ) (placed : List Placement) (it : Item) (anchors : List V3) :
    List V3 → Option Placement
  | [] => none
  | d :: ds =>
    match tryAnchors bin maxW placed it d anchors with
    | some p => some p
    | none => tryOrientList bin maxW placed it anchors ds

/-- Modelled from the spec: the placement attempt for one item (§4.4):
for each allowed orientation, for each anchor in stable order, place at the
first admissible spot; `none` when no combination succeeds. -/
def tryPlace (rule : SizeRule) (bin : V3) (maxW : ℚ) (placed : List Placement)
    (anchors : List V3) (it : Item) : Option Placement :=
  tryOrientList bin maxW placed it anchors (orientationsFor rule it)

/-- Modelled from the spec: the placement search over a list of items
(§4.4): each item is either placed (extending the placed list and the anchor
set with the three far corners of the new placement) or deferred to the next
bin.  Returns the final placed list and the deferred items in order. -/
def placeItems (rule : SizeRule) (bin : V3) (maxW : ℚ) :
    List Item → List Placement → List V3 → List Placement × List Item
  | [], placed, _ => (placed, [])
  | it :: its, placed, anchors =>
    match tryPlace rule bin maxW placed anchors it with
    | some p =>
        placeItems rule bin maxW its (placed ++ [p])
          (insertAnchor ⟨p.pos.x + p.dims.x, p.pos.y, p.pos.z⟩
            (insertAnchor ⟨p.pos.x, p.pos.y + p.dims.y, p.pos.z⟩
              (insertAnchor ⟨p.pos.x, p.pos.y, p.pos.z + p.dims.z⟩ anchors)))
    | none =>
        let rest := placeItems rule bin maxW its placed anchors
        (rest.1, it :: rest.2)

/-- Volume of an item in cm³. -/
def itemVolume (it : Item) : ℚ := it.length * it.width * it.height

/-- Longest edge of an item. -/
def longestEdge (it : Item) : ℚ := max it.length (max it.width it.height)

/-- Modelled from the spec: strict packing priority between items (§4.4,
step 2): larger volume first, ties broken by larger longest edge; full ties
keep input order. -/
def itemBefore (a b : Item) : Prop :=
  itemVolume b < itemVolume a ∨
  (itemVolume a = itemVolume b ∧ longestEdge b < longestEdge a)

instance (a b : Item) : Decidable (itemBefore a b) := by unfold itemBefore; infer_instance

/-- Insert an item after every already listed item that does not come
strictly after it (stable insertion). -/
def insertItem (a : Item) : List Item → List Item
  | [] => [a]
  | b :: rest => if itemBefore a b then a :: b :: rest else b :: insertItem a rest

/-- Modelled from the spec: stable sort of a destination group into
decreasing volume order with the §4.4 tie-breaks (insertion sort processing
the input left to right, so full ties keep input order). -/
def sortItems (items : List Item) : List Item :=
  items.foldl (fun acc a => insertItem a acc) []

/-- Modelled from the spec: a packed box (§3): destination, interior
dimensions (the tightest box containing all placements), the placements, and
the total weight (item weights plus cardboard weight from the outer
dimensions). -/
structure PackedBox where
  destination : String
  dims : V3
  placements : List Placement
  weight : ℚ
deriving DecidableEq

/-- Modelled from the spec: the result shape of the `pack_items` command
(§6): packed boxes, total interior volume, and the unpacked items. -/
structure PackingSolution where
  boxes : List PackedBox
  total_volume : ℚ
  unpacked_items : List Item
deriving DecidableEq

/-- Modelled from the spec: the error kinds that abort a `pack_items`
request (§7). -/
inductive PackError where
  | emptyInput
  | unknownDestination (destination : String)
deriving DecidableEq

/-- Modelled from the spec: the items of a group that cannot be admitted
even into a fresh, empty, maximum-size bin (§4.4 step 5): the placement
attempt on an empty bin with only the origin anchor fails. -/
def unfitOf (profile : DestinationProfile) (remaining : List Item) : List Item :=
  remaining.filter (fun it =>
    (tryPlace profile.rule (maxInterior profile.rule) profile.maxWeight [] [⟨0, 0, 0⟩] it).isNone)

/-- Modelled from the spec: the items of a group admissible into a fresh
empty maximum-size bin, in order. -/
def candsOf (profile : DestinationProfile) (remaining : List Item) : List Item :=
  remaining.filter (fun it =>
    !(tryPlace profile.rule (maxInterior profile.rule) profile.maxWeight [] [⟨0, 0, 0⟩] it).isNone)

/-- Modelled from the spec: one bin's placement search (§4.4): run the
search for the admissible remaining items in a fresh maximum-size bin,
starting from no placements and the origin anchor. -/
def searchOf (profile : DestinationProfile) (remaining : List Item) :
    List Placement × List Item :=
  placeItems profile.rule (maxInterior profile.rule) profile.maxWeight
    (candsOf profile remaining) [] [⟨0, 0, 0⟩]

/-- Modelled from the spec: emit a packed box (§4.4 steps 3-4): trim the bin
to the bounding box of the placements made and recompute the exact weight
from the trimmed outer dimensions. -/
def mkBox (dest : String) (placed : List Placement) : PackedBox :=
  ⟨dest, bboxOf placed, placed, totalWeight placed + cardboard_weight (outer_dims (bboxOf placed))⟩

/-- Modelled from the spec: one destination group's bin-selection loop
(§4.4), written with explicit fuel (the loop consumes at least one item per
emitted box, so fuel equal to the group size suffices; the fuel-exhausted
and nothing-placed branches route every remaining item to unpacked and are
unreachable for the initial fuel).  Each round: items that cannot be
admitted even into a fresh empty maximum-size bin are routed to unpacked
(§4.4 step 5); the placement search runs on the rest; the trimmed box is
emitted and the deferred items go to the next round. -/
def binLoop (profile : DestinationProfile) (dest : String) :
    Nat → List Item → List PackedBox × List Item
  | 0, remaining => ([], remaining)
  | _ + 1, [] => ([], [])
  | n + 1, it0 :: rest0 =>
    let remaining := it0 :: rest0
    let res := searchOf profile remaining
    if res.1 = [] then ([], unfitOf profile remaining ++ res.2)
    else
      let next := binLoop profile dest n res.2
      (mkBox dest res.1 :: next.1, unfitOf profile remaining ++ next.2)

/-- Modelled from the spec: run one destination group (§4.4): sort the group
by the packing priority, then run the bin-selection loop with sufficient
fuel. -/
def packGroup (profile : DestinationProfile) (dest : String) (group : List Item) :
    List PackedBox × List Item :=
  binLoop profile dest (sortItems group).length (sortItems group)

/-- The destinations of a list of items, in order of first appearance. -/
def destKeys : List Item → List String
  | [] => []
  | i :: is => i.destination :: (destKeys is).filter (fun d => d ≠ i.destination)

/-- Modelled from the spec: the Item Grouper plus the per-group engine runs
(§4.3, §4.4): one (boxes, unpacked) pair per destination, groups in order of
first appearance, each group preserving input order.  The `none` branch is
unreachable from `pack_items` (the unknown-destination guard has already
failed the request) and contributes no boxes. -/
def groupResults (items : List Item) : List (List PackedBox × List Item) :=
  (destKeys items).map (fun d =>
    match profile_of d with
    | some profile => packGroup profile d (items.filter (fun i => i.destination = d))
    | none => ([], items.filter (fun i => i.destination = d)))

/-- Modelled from the spec: the `pack_items` command (§4.5, §6, §7):
fail on empty input or on any unknown destination; otherwise run the engine
per destination group and assemble all boxes and unpacked items, with
`total_volume` the sum of interior volumes. -/
def pack_items (items : List Item) : Except PackError PackingSolution :=
  if items = [] then .error .emptyInput
  else
    match items.find? (fun i => (profile_of i.destination).isNone) with
    | some i => .error (.unknownDestination i.destination)
    | none =>
      let results := groupResults items
      let boxes := (results.map Prod.fst).flatten
      let unpacked := (results.map Prod.snd).flatten
      .ok ⟨boxes, (boxes.map (fun b => b.dims.x * b.dims.y * b.dims.z)).sum, unpacked⟩

deriving instance DecidableEq for Except

/-! ### Presentation layer

The following definitions are translated from the Vue sources
(PackingResults.vue, ItemsList.vue, App.vue).  JavaScript `Record` objects
are modelled as association lists that keep key insertion order, and the
small slices of JavaScript string/number behaviour that the sources use
(`String.includes`, `parseInt`/`parseFloat` on a first regex match, number
to string conversion for the terminating decimals appearing here) are
modelled by the explicit helper functions below. -/

namespace UI

/-- Whether `pat` is a prefix of `l` (character lists). -/
def startsWithChars : List Char → List Char → Bool
  | _, [] => true
  | [], _ :: _ => false
  | a :: as, b :: bs => a == b && startsWithChars as bs

/-- Whether `pat` occurs as a contiguous sublist of the second argument. -/
def hasSubList (pat : List Char) : List Char → Bool
  | [] => startsWithChars [] pat
  | a :: rest => startsWithChars (a :: rest) pat || hasSubList pat rest

/-- Model of JavaScript `s.includes(pat)`: substring containment. -/
def strIncludes (s pat : String) : Bool := hasSubList pat.data s.data

/-- Value of a list of decimal digit characters, most significant first. -/
def natOfDigits (l : List Char) : Nat :=
  l.foldl (fun n c => 10 * n + (c.toNat - 48)) 0

/-- The first maximal run of decimal digits in a character list (the match
of the regex for one-or-more digits); empty when there is none. -/
def firstDigitRun : List Char → List Char
  | [] => []
  | c :: rest => if c.isDigit then (c :: rest).takeWhile Char.isDigit else firstDigitRun rest

/-- Characters matched by the number-or-dot character class used in the
sources' weight regex. -/
def isNumChar (c : Char) : Bool := c.isDigit || c == '.'

/-- The first maximal run of digit-or-dot characters in a character list
(the match of the weight regex); empty when there is none. -/
def firstNumRun : List Char → List Char
  | [] => []
  | c :: rest => if isNumChar c then (c :: rest).takeWhile isNumChar else firstNumRun rest

/-- Model of JavaScript `parseFloat` on a digit-or-dot run: integer digits,
then an optional dot followed by fraction digits; anything after a second
dot is ignored, and a run with no leading digits before the dot parses its
fraction only (the sources only ever parse runs like "22" or "22.5"). -/
def parseFloatRun (l : List Char) : ℚ :=
  let ip := l.takeWhile Char.isDigit
  let rest := l.dropWhile Char.isDigit
  match rest with
  | '.' :: rest2 =>
    let fr := rest2.takeWhile Char.isDigit
    (natOfDigits ip : ℚ) + (natOfDigits fr : ℚ) / (10 : ℚ) ^ fr.length
  | _ => (natOfDigits ip : ℚ)

/-- Decimal digits of a rational in `[0,1)` with denominator dividing a
power of ten, produced with explicit fuel. -/
def fracDigits : Nat → ℚ → List Char
  | 0, _ => []
  | n + 1, q =>
    if q = 0 then []
    else
      let q10 := q * 10
      Char.ofNat (48 + q10.floor.toNat) :: fracDigits n (q10 - (q10.floor : ℚ))

/-- Model of JavaScript number-to-string conversion for the non-negative
terminating decimals used by the display code (integers print without a
decimal point, otherwise integer part, a dot, then the fraction digits). -/
def numToStr (q : ℚ) : String :=
  if q.den = 1 then toString q.num
  else toString q.floor ++ "." ++ String.mk (fracDigits 20 (q - (q.floor : ℚ)))

/-- A destination's constraint record as displayed by PackingResults.vue:
dimension text, weight text and description. -/
structure Constraints where
  dimensions : String
  weight : String
  description : String
deriving DecidableEq

/-- Embeds `getConstraints` of PackingResults.vue: the record of the five
known destinations, with the `||`-fallback record for any other key. -/
def getConstraints (destination : String) : Constraints :=
  if destination = "澳洲" then
    ⟨"每边最大63cm", "最大22kg", "外箱任何一边不得超过63cm，总重量必须低于22kg。"⟩
  else if destination = "美国" then
    ⟨"每边最大63cm", "最大22kg", "外箱任何一边不得超过63cm，总重量必须低于22kg。"⟩
  else if destination = "英国" then
    ⟨"每边最大63cm", "最大15kg", "外箱任何一边不得超过63cm，总重量必须低于15kg。"⟩
  else if destination = "德国" then
    ⟨"每边最大63cm", "最大22.5kg", "外箱任何一边不得超过63cm，总重量必须低于22.5kg。"⟩
  else if destination = "日本" then
    ⟨"长度最大60cm，宽高最大50cm", "最大40kg", "长度不得超过60cm，宽度和高度不得超过50cm，总重量必须低于40kg。"⟩
  else ⟨"未知", "未知", "无约束信息。"⟩

/-- Embeds `getUnpackedReason` of PackingResults.vue: parse a numeric limit
out of the constraint record's display strings (0 when the "最大" marker is
absent), then report the first violated limit; the Japan branch uses
hard-coded limits. -/
def getUnpackedReason (item : Item) : String :=
  let constraints := getConstraints item.destination
  let maxDim : Nat :=
    if strIncludes constraints.dimensions "最大" then
      natOfDigits (firstDigitRun constraints.dimensions.data)
    else 0
  let maxWeight : ℚ :=
    if strIncludes constraints.weight "最大" then
      parseFloatRun (firstNumRun constraints.weight.data)
    else 0
  if item.destination = "日本" then
    if item.length > 60 then "长度超过60cm限制"
    else if item.width > 50 then "宽度超过50cm限制"
    else if item.height > 50 then "高度超过50cm限制"
    else if item.weight > 40 then "重量超过40kg限制"
    else "无法有效装入任何箱子"
  else
    if item.length > (maxDim : ℚ) then "长度超过" ++ toString maxDim ++ "cm限制"
    else if item.width > (maxDim : ℚ) then "宽度超过" ++ toString maxDim ++ "cm限制"
    else if item.height > (maxDim : ℚ) then "高度超过" ++ toString maxDim ++ "cm限制"
    else if item.weight > maxWeight then "重量超过" ++ numToStr maxWeight ++ "kg限制"
    else "无法有效装入任何箱子"

/-- The `PackedBox` interface of the Vue components: a flat list of items
plus interior dimensions, weight and destination. -/
structure PackedBox where
  items : List Item
  length : ℚ
  width : ℚ
  height : ℚ
  weight : ℚ
  destination : String
deriving DecidableEq

/-- Embeds `calculateUtilization` of PackingResults.vue: the items' summed
volume divided by the box's interior volume, times 100. -/
def calculateUtilization (box : PackedBox) : ℚ :=
  let boxVolume := box.length * box.width * box.height
  let itemsVolume := box.items.foldl (fun sum item => sum + item.length * item.width * item.height) 0
  itemsVolume / boxVolume * 100

/-- Embeds `itemsByDestination` of ItemsList.vue: fold over the items,
creating a group at first sight of a destination (JavaScript objects keep
key insertion order) and pushing each item onto its destination's group. -/
def itemsByDestination (items : List Item) : List (String × List Item) :=
  items.foldl (fun grouped item =>
    if grouped.any (fun kv => kv.1 == item.destination) then
      grouped.map (fun kv =>
        if kv.1 == item.destination then (kv.1, kv.2 ++ [item]) else kv)
    else grouped ++ [(item.destination, [item])]) []

/-- A standard item definition of App.vue: predefined size, weight and
destination. -/
structure StandardItem where
  id : String
  name : String
  length : ℚ
  width : ℚ
  height : ℚ
  weight : ℚ
  destination : String
deriving DecidableEq

/-- Embeds the `standardItems` record of App.vue. -/
def standardItems : List (String × StandardItem) :=
  [("AUN11-ZY0009", ⟨"AUN11-ZY0009", "澳洲标准箱", 30, 20, 8, 0.68, "澳洲"⟩),
   ("USY6-05-0314", ⟨"USY6-05-0314", "美国标准包裹", 49, 21, 8, 6.999, "美国"⟩),
   ("UKB8-ZY0009", ⟨"UKB8-ZY0009", "英国标准包装", 30, 20, 8, 0.68, "英国"⟩),
   ("DEW1-ZB0004", ⟨"DEW1-ZB0004", "德国标准箱", 45, 29, 17, 1.5, "德国"⟩),
   ("JPY5-GR049", ⟨"JPY5-GR049", "日本标准包装", 25, 25, 10, 0.82, "日本"⟩)]

/-- Lookup in the `standardItems` record. -/
def lookupStandard (itemId : String) : Option StandardItem :=
  (standardItems.find? (fun kv => kv.1 == itemId)).map Prod.snd

/-- The item pushed by one iteration of App.vue's `addItems` loop: id is
the standard item's id, a dash and the 1-based loop counter; the remaining
fields are copied from the standard item. -/
def newItemOf (s : StandardItem) (n : Nat) : Item :=
  ⟨s.id ++ "-" ++ toString n, s.destination, s.length, s.width, s.height, s.weight⟩

/-- The batch of items one `addItems` call appends. -/
def batchOf (s : StandardItem) (quantity : Nat) : List Item :=
  (List.range quantity).map (fun i => newItemOf s (i + 1))

/-- Embeds `addItems` of App.vue: look up the selected standard item and
push one new item per quantity onto the list (`none` models the JavaScript
crash on an unknown key). -/
def addItems (items : List Item) (itemId : String) (quantity : Nat) : Option (List Item) :=
  (lookupStandard itemId).map (fun s =>
    (List.range quantity).foldl (fun acc i => acc ++ [newItemOf s (i + 1)]) items)

/-- The observable effect of App.vue's `calculatePacking`: either the empty
list alert (no backend call) or an invocation of the `pack_items` command
with the current items. -/
inductive CalcAction where
  | alerted
  | invoked (items : List Item)
deriving DecidableEq

/-- Embeds `calculatePacking` of App.vue: alert and return when the items
list is empty, otherwise invoke `pack_items` on the current items. -/
def calculatePacking (items : List Item) : CalcAction :=
  if items.length = 0 then .alerted else .invoked items

end UI

/-! ### Basic lemmas about the geometric helpers -/

theorem V3.le_refl (a : V3) : V3.le a a := ⟨le_rfl, le_rfl, le_rfl⟩

theorem V3.le_trans {a b c : V3} (h1 : V3.le a b) (h2 : V3.le b c) : V3.le a c :=
  ⟨h1.1.trans h2.1, h1.2.1.trans h2.2.1, h1.2.2.trans h2.2.2⟩

theorem V3.le_sup_left (a b : V3) : V3.le a (a.sup b) :=
  ⟨le_max_left _ _, le_max_left _ _, le_max_left _ _⟩

theorem V3.le_sup_right (a b : V3) : V3.le b (a.sup b) :=
  ⟨le_max_right _ _, le_max_right _ _, le_max_right _ _⟩

theorem V3.sup_le {a b c : V3} (h1 : V3.le a c) (h2 : V3.le b c) : V3.le (a.sup b) c :=
  ⟨max_le h1.1 h2.1, max_le h1.2.1 h2.2.1, max_le h1.2.2 h2.2.2⟩

theorem overlaps_symm {p q : Placement} (h : overlaps p q) : overlaps q p :=
  ⟨h.2.1, h.1, h.2.2.2.1, h.2.2.1, h.2.2.2.2.2, h.2.2.2.2.1⟩

theorem bbox_foldl_le_of_init {l : List Placement} {acc bin : V3}
    (hacc : V3.le acc bin) (h : ∀ p ∈ l, V3.le p.far bin) :
    V3.le (l.foldl (fun a p => a.sup p.far) acc) bin := by
  induction l generalizing acc with
  | nil => exact hacc
  | cons p rest ih =>
    exact ih (V3.sup_le hacc (h p (List.mem_cons_self _ _)))
      (fun q hq => h q (List.mem_cons_of_mem _ hq))

theorem init_le_bbox_foldl (l : List Placement) (acc : V3) :
    V3.le acc (l.foldl (fun a p => a.sup p.far) acc) := by
  induction l generalizing acc with
  | nil => exact V3.le_refl acc
  | cons p rest ih =>
    exact V3.le_trans (V3.le_sup_left acc p.far) (ih (acc.sup p.far))

theorem far_le_bbox_foldl {l : List Placement} {p : Placement} (hp : p ∈ l) (acc : V3) :
    V3.le p.far (l.foldl (fun a p => a.sup p.far) acc) := by
  induction l generalizing acc with
  | nil => cases hp
  | cons q rest ih =>
    rcases List.mem_cons.1 hp with h | h
    · subst h
      exact V3.le_trans (V3.le_sup_right acc p.far) (init_le_bbox_foldl rest (acc.sup p.far))
    · exact ih h (acc.sup q.far)

theorem far_le_bboxOf {l : List Placement} {p : Placement} (hp : p ∈ l) :
    V3.le p.far (bboxOf l) := far_le_bbox_foldl hp ⟨0, 0, 0⟩

theorem bboxOf_le {l : List Placement} {bin : V3}
    (h0 : V3.le ⟨0, 0, 0⟩ bin) (h : ∀ p ∈ l, V3.le p.far bin) : V3.le (bboxOf l) bin :=
  bbox_foldl_le_of_init h0 h

theorem bboxOf_append_one (l : List Placement) (p : Placement) :
    bboxOf (l ++ [p]) = (bboxOf l).sup p.far := by
  unfold bboxOf
  rw [List.foldl_append]
  rfl

theorem totalWeight_append_one (l : List Placement) (p : Placement) :
    totalWeight (l ++ [p]) = totalWeight l + p.item.weight := by
  unfold totalWeight
  rw [List.map_append, List.sum_append]
  simp

/-! ### Lemmas about the placement search -/

theorem tryAnchors_some {bin : V3} {maxW : ℚ} {placed : List Placement} {it : Item}
    {dims : V3} {anchors : List V3} {p : Placement}
    (h : tryAnchors bin maxW placed it dims anchors = some p) :
    p.item = it ∧ p.dims = dims ∧ canPlaceAt bin maxW placed it p.pos p.dims := by
  induction anchors with
  | nil => cases h
  | cons a rest ih =>
    unfold tryAnchors at h
    split at h
    · cases h
      exact ⟨rfl, rfl, by assumption⟩
    · exact ih h

theorem tryOrientList_some {bin : V3} {maxW : ℚ} {placed : List Placement} {it : Item}
    {anchors : List V3} {ds : List V3} {p : Placement}
    (h : tryOrientList bin maxW placed it anchors ds = some p) :
    p.item = it ∧ canPlaceAt bin maxW placed it p.pos p.dims := by
  induction ds with
  | nil => cases h
  | cons d rest ih =>
    unfold tryOrientList at h
    split at h
    · rename_i heq
      cases h
      exact ⟨(tryAnchors_some heq).1, (tryAnchors_some heq).2.2⟩
    · exact ih h

theorem tryPlace_some {rule : SizeRule} {bin : V3} {maxW : ℚ} {placed : List Placement}
    {anchors : List V3} {it : Item} {p : Placement}
    (h : tryPlace rule bin maxW placed anchors it = some p) :
    p.item = it ∧ canPlaceAt bin maxW placed it p.pos p.dims :=
  tryOrientList_some h

theorem tryAnchors_none {bin : V3} {maxW : ℚ} {placed : List Placement} {it : Item}
    {dims : V3} {anchors : List V3}
    (h : ∀ a ∈ anchors, ¬ canPlaceAt bin maxW placed it a dims) :
    tryAnchors bin maxW placed it dims anchors = none := by
  induction anchors with
  | nil => rfl
  | cons a rest ih =>
    unfold tryAnchors
    rw [if_neg (h a (List.mem_cons_self _ _))]
    exact ih (fun b hb => h b (List.mem_cons_of_mem _ hb))

theorem tryPlace_none_of_unfit {rule : SizeRule} {bin : V3} {maxW : ℚ}
    {placed : List Placement} {anchors : List V3} {it : Item}
    (hfit : ∀ d ∈ orientationsFor rule it, ¬ V3.le d bin)
    (hanch : ∀ a ∈ anchors, 0 ≤ a.x ∧ 0 ≤ a.y ∧ 0 ≤ a.z) :
    tryPlace rule bin maxW placed anchors it = none := by
  unfold tryPlace
  have key : ∀ ds : List V3, (∀ d ∈ ds, ¬ V3.le d bin) →
      tryOrientList bin maxW placed it anchors ds = none := by
    intro ds hds
    induction ds with
    | nil => rfl
    | cons d rest ih =>
      unfold tryOrientList
      rw [tryAnchors_none, ih (fun e he => hds e (List.mem_cons_of_mem _ he))]
      intro a ha hcan
      rcases hcan.1 with ⟨_, _, _, hx, hy, hz⟩
      rcases hanch a ha with ⟨hax, hay, haz⟩
      exact hds d (List.mem_cons_self _ _) ⟨by linarith, by linarith, by linarith⟩
  exact key _ hfit

/-- The result of the placement search, with the deferred items, is a
permutation of the initial placed items together with the input items. -/
theorem placeItems_perm (rule : SizeRule) (bin : V3) (maxW : ℚ) :
    ∀ (its : List Item) (placed : List Placement) (anchors : List V3),
      ((placeItems rule bin maxW its placed anchors).1.map (fun p => p.item) ++
        (placeItems rule bin maxW its placed anchors).2).Perm
        (placed.map (fun p => p.item) ++ its) := by
  intro its
  induction its with
  | nil =>
    intro placed anchors
    simp [placeItems]
  | cons it rest ih =>
    intro placed anchors
    cases htry : tryPlace rule bin maxW placed anchors it with
    | some p =>
      have hitem : p.item = it := (tryPlace_some htry).1
      have heq : (placed ++ [p]).map (fun q => q.item) ++ rest =
          placed.map (fun q => q.item) ++ (it :: rest) := by
        simp [hitem]
      simp only [placeItems, htry]
      exact (ih (placed ++ [p]) _).trans (heq ▸ List.Perm.refl _)
    | none =>
      simp only [placeItems, htry]
      refine List.Perm.trans ?_ List.perm_middle.symm
      refine List.Perm.trans List.perm_middle ?_
      exact (ih placed anchors).cons it

/-- Every placement produced by the search stays inside the bin, provided
the initial placements do. -/
theorem placeItems_inBounds (rule : SizeRule) (bin : V3) (maxW : ℚ) :
    ∀ (its : List Item) (placed : List Placement) (anchors : List V3),
      (∀ p ∈ placed, inBounds bin p.pos p.dims) →
      ∀ p ∈ (placeItems rule bin maxW its placed anchors).1, inBounds bin p.pos p.dims := by
  intro its
  induction its with
  | nil =>
    intro placed anchors hp
    simpa [placeItems] using hp
  | cons it rest ih =>
    intro placed anchors hp
    cases htry : tryPlace rule bin maxW placed anchors it with
    | some p =>
      simp only [placeItems, htry]
      refine ih (placed ++ [p]) _ ?_
      intro q hq
      rcases List.mem_append.1 hq with h | h
      · exact hp q h
      · rcases List.mem_singleton.1 h with rfl
        exact (tryPlace_some htry).2.1
    | none =>
      simp only [placeItems, htry]
      exact ih placed anchors hp

/-- The placements produced by the search are pairwise non-overlapping,
provided the initial placements are. -/
theorem placeItems_pairwise (rule : SizeRule) (bin : V3) (maxW : ℚ) :
    ∀ (its : List Item) (placed : List Placement) (anchors : List V3),
      List.Pairwise (fun p q => ¬ overlaps p q) placed →
      List.Pairwise (fun p q => ¬ overlaps p q)
        (placeItems rule bin maxW its placed anchors).1 := by
  intro its
  induction its with
  | nil =>
    intro placed anchors hp
    simpa [placeItems] using hp
  | cons it rest ih =>
    intro placed anchors hp
    cases htry : tryPlace rule bin maxW placed anchors it with
    | some p =>
      simp only [placeItems, htry]
      refine ih (placed ++ [p]) _ ?_
      rw [List.pairwise_append]
      refine ⟨hp, List.pairwise_singleton _ _, ?_⟩
      intro a ha b hb
      rcases List.mem_singleton.1 hb with rfl
      have hnew := (tryPlace_some htry).2.2.1
      have hpitem : (⟨it, b.pos, b.dims⟩ : Placement) = b := by
        rw [← (tryPlace_some htry).1]
      intro hover
      exact hnew a ha (hpitem.symm ▸ overlaps_symm hover)
    | none =>
      simp only [placeItems, htry]
      exact ih placed anchors hp

/-- The weight invariant of the search: once the placed list is non-empty,
its item weights plus the cardboard weight of its trimmed outer bounding box
stay within the limit. -/
theorem placeItems_weight (rule : SizeRule) (bin : V3) (maxW : ℚ) :
    ∀ (its : List Item) (placed : List Placement) (anchors : List V3),
      (placed = [] ∨
        totalWeight placed + cardboard_weight (outer_dims (bboxOf placed)) ≤ maxW) →
      ((placeItems rule bin maxW its placed anchors).1 = [] ∨
        totalWeight (placeItems rule bin maxW its placed anchors).1 +
          cardboard_weight (outer_dims (bboxOf (placeItems rule bin maxW its placed anchors).1)) ≤ maxW) := by
  intro its
  induction its with
  | nil =>
    intro placed anchors hp
    simpa [placeItems] using hp
  | cons it rest ih =>
    intro placed anchors hp
    cases htry : tryPlace rule bin maxW placed anchors it with
    | some p =>
      simp only [placeItems, htry]
      refine ih (placed ++ [p]) _ (Or.inr ?_)
      have hw := (tryPlace_some htry).2.2.2
      have hpitem : (⟨it, p.pos, p.dims⟩ : Placement) = p := by
        rw [← (tryPlace_some htry).1]
      unfold weightOk at hw
      rw [hpitem] at hw
      rw [totalWeight_append_one, bboxOf_append_one]
      have hwit : p.item.weight = it.weight := by rw [(tryPlace_some htry).1]
      rw [hwit]
      linarith [hw]
    | none =>
      simp only [placeItems, htry]
      exact ih placed anchors hp

/-- Splitting a group into unfit items and bin candidates is a permutation
of the group. -/
theorem unfit_cands_perm (profile : DestinationProfile) (remaining : List Item) :
    (unfitOf profile remaining ++ candsOf profile remaining).Perm remaining :=
  List.filter_append_perm _ remaining

/-- The items of the boxes emitted by the bin loop, together with its
unpacked items, are a permutation of the remaining items it was given. -/
theorem binLoop_perm (profile : DestinationProfile) (dest : String) :
    ∀ (n : Nat) (remaining : List Item),
      (((binLoop profile dest n remaining).1.map
          (fun b => b.placements.map (fun p => p.item))).flatten ++
        (binLoop profile dest n remaining).2).Perm remaining := by
  intro n
  induction n with
  | zero =>
    intro remaining
    simp [binLoop]
  | succ n ih =>
    intro remaining
    cases remaining with
    | nil => simp [binLoop]
    | cons it0 rest0 =>
      have hsearch : ((searchOf profile (it0 :: rest0)).1.map (fun p => p.item) ++
          (searchOf profile (it0 :: rest0)).2).Perm (candsOf profile (it0 :: rest0)) := by
        simpa using placeItems_perm profile.rule (maxInterior profile.rule) profile.maxWeight
          (candsOf profile (it0 :: rest0)) [] [⟨0, 0, 0⟩]
      have hsplit := unfit_cands_perm profile (it0 :: rest0)
      simp only [binLoop]
      split
      · rename_i hres
        rw [List.perm_iff_count]
        intro a
        have h2 := List.perm_iff_count.1 hsearch a
        have h3 := List.perm_iff_count.1 hsplit a
        rw [hres] at h2
        simp only [List.map_nil, List.flatten_nil, List.nil_append,
          List.count_append] at h2 h3 ⊢
        omega
      · rename_i hres
        have h1 := ih (searchOf profile (it0 :: rest0)).2
        rw [List.perm_iff_count]
        intro a
        have hc1 := List.perm_iff_count.1 h1 a
        have h2 := List.perm_iff_count.1 hsearch a
        have h3 := List.perm_iff_count.1 hsplit a
        simp only [List.map_cons, List.flatten_cons, List.count_append, mkBox] at hc1 h2 h3 ⊢
        omega

/-- Every box emitted by the bin loop carries the group's destination, a
non-empty placement list, trimmed dimensions, the recomputed weight, and
satisfies the in-bin bounds, pairwise non-overlap, and the weight limit. -/
theorem binLoop_boxes (profile : DestinationProfile) (dest : String) :
    ∀ (n : Nat) (remaining : List Item),
      ∀ b ∈ (binLoop profile dest n remaining).1,
        b.destination = dest ∧
        b.placements ≠ [] ∧
        b.dims = bboxOf b.placements ∧
        b.weight = totalWeight b.placements + cardboard_weight (outer_dims b.dims) ∧
        (∀ p ∈ b.placements, inBounds (maxInterior profile.rule) p.pos p.dims) ∧
        List.Pairwise (fun p q => ¬ overlaps p q) b.placements ∧
        b.weight ≤ profile.maxWeight := by
  intro n
  induction n with
  | zero =>
    intro remaining b hb
    simp [binLoop] at hb
  | succ n ih =>
    intro remaining
    cases remaining with
    | nil =>
      intro b hb
      simp [binLoop] at hb
    | cons it0 rest0 =>
      intro b hb
      simp only [binLoop] at hb
      split at hb
      · simp at hb
      · rename_i hres
        simp only [List.mem_cons] at hb
        rcases hb with rfl | hmem
        · have hbounds : ∀ p ∈ (searchOf profile (it0 :: rest0)).1,
              inBounds (maxInterior profile.rule) p.pos p.dims :=
            placeItems_inBounds profile.rule (maxInterior profile.rule) profile.maxWeight
              (candsOf profile (it0 :: rest0)) [] [⟨0, 0, 0⟩]
              (fun p hp => (List.not_mem_nil p hp).elim)
          have hpair : List.Pairwise (fun p q => ¬ overlaps p q)
              (searchOf profile (it0 :: rest0)).1 :=
            placeItems_pairwise profile.rule (maxInterior profile.rule) profile.maxWeight
              (candsOf profile (it0 :: rest0)) [] [⟨0, 0, 0⟩] List.Pairwise.nil
          have hw : (searchOf profile (it0 :: rest0)).1 = [] ∨
              totalWeight (searchOf profile (it0 :: rest0)).1 +
                cardboard_weight (outer_dims (bboxOf (searchOf profile (it0 :: rest0)).1)) ≤
                profile.maxWeight :=
            placeItems_weight profile.rule (maxInterior profile.rule) profile.maxWeight
              (candsOf profile (it0 :: rest0)) [] [⟨0, 0, 0⟩] (Or.inl rfl)
          rcases hw with hw | hw
          · exact absurd hw hres
          · exact ⟨rfl, hres, rfl, rfl, hbounds, hpair, hw⟩
        · exact ih _ b hmem

/-- An item whose placement attempt on a fresh empty maximum-size bin fails
ends up in the bin loop's unpacked list whenever it is among the remaining
items. -/
theorem binLoop_unfit_unpacked (profile : DestinationProfile) (dest : String) :
    ∀ (n : Nat) (remaining : List Item) (it : Item), it ∈ remaining →
      (tryPlace profile.rule (maxInterior profile.rule) profile.maxWeight [] [⟨0, 0, 0⟩] it).isNone →
      it ∈ (binLoop profile dest n remaining).2 := by
  intro n
  induction n with
  | zero =>
    intro remaining it hmem _
    simpa [binLoop] using hmem
  | succ n ih =>
    intro remaining
    cases remaining with
    | nil =>
      intro it hmem
      cases hmem
    | cons it0 rest0 =>
      intro it hmem hnone
      have hunfit : it ∈ unfitOf profile (it0 :: rest0) :=
        List.mem_filter.2 ⟨hmem, hnone⟩
      simp only [binLoop]
      split
      · exact List.mem_append.2 (Or.inl hunfit)
      · exact List.mem_append.2 (Or.inl hunfit)

/-- Inserting an item produces a permutation of consing it. -/
theorem insertItem_perm (a : Item) (l : List Item) : (insertItem a l).Perm (a :: l) := by
  induction l with
  | nil => exact List.Perm.refl _
  | cons b rest ih =>
    unfold insertItem
    split
    · exact List.Perm.refl _
    · exact (ih.cons b).trans (List.Perm.swap a b rest)

/-- Sorting a group by the packing priority permutes the group. -/
theorem sortItems_perm (items : List Item) : (sortItems items).Perm items := by
  have key : ∀ (l acc : List Item),
      (l.foldl (fun acc a => insertItem a acc) acc).Perm (acc ++ l) := by
    intro l
    induction l with
    | nil => intro acc; simp
    | cons a rest ih =>
      intro acc
      refine (ih (insertItem a acc)).trans ?_
      refine List.Perm.trans (((insertItem_perm a acc).append_right rest)) ?_
      exact List.perm_middle.symm
  simpa using key items []

/-- The destination keys of a list are distinct. -/
theorem destKeys_nodup (items : List Item) : (destKeys items).Nodup := by
  induction items with
  | nil => exact List.nodup_nil
  | cons i rest ih =>
    refine List.nodup_cons.2 ⟨?_, List.Nodup.filter _ ih⟩
    intro hmem
    have := (List.mem_filter.1 hmem).2
    simp at this

/-- Every item's destination occurs among the destination keys. -/
theorem mem_destKeys {items : List Item} {i : Item} (h : i ∈ items) :
    i.destination ∈ destKeys items := by
  induction items with
  | nil => cases h
  | cons j rest ih =>
    rcases List.mem_cons.1 h with rfl | h
    · exact List.mem_cons_self _ _
    · unfold destKeys
      by_cases hd : i.destination = j.destination
      · rw [hd]
        exact List.mem_cons_self _ _
      · exact List.mem_cons_of_mem _ (List.mem_filter.2 ⟨ih h, by simpa using hd⟩)

/-- Counting an item in the filter of its destination group. -/
theorem count_filter_dest (a : Item) (items : List Item) (d : String) :
    List.count a (items.filter (fun i => i.destination = d)) =
      if a.destination = d then List.count a items else 0 := by
  induction items with
  | nil => simp
  | cons j rest ih =>
    by_cases hj : j.destination = d
    · rw [List.filter_cons_of_pos (by simpa using hj)]
      by_cases ha : a = j
      · subst ha
        simp [List.count_cons_self, ih, hj]
      · rw [List.count_cons_of_ne ha, List.count_cons_of_ne ha, ih]
    · rw [List.filter_cons_of_neg (by simpa using hj)]
      by_cases ha : a = j
      · subst ha
        simp [ih, hj]
      · rw [List.count_cons_of_ne ha, ih]

/-- Counting inside the concatenation of all destination groups over a list
of distinct keys. -/
theorem count_flatten_groups (a : Item) (items : List Item) :
    ∀ keys : List String, keys.Nodup →
      List.count a ((keys.map (fun d => items.filter (fun i => i.destination = d))).flatten) =
        if a.destination ∈ keys then List.count a items else 0 := by
  intro keys
  induction keys with
  | nil => simp
  | cons k rest ih =>
    intro hnodup
    rcases List.nodup_cons.1 hnodup with ⟨hk, hrest⟩
    rw [List.map_cons, List.flatten_cons, List.count_append, count_filter_dest, ih hrest]
    by_cases hd : a.destination = k
    · simp [hd, hk]
    · simp [hd]

/-- The concatenation of all destination groups permutes the input list. -/
theorem groups_flatten_perm (items : List Item) :
    (((destKeys items).map (fun d => items.filter (fun i => i.destination = d))).flatten).Perm
      items := by
  rw [List.perm_iff_count]
  intro a
  rw [count_flatten_groups a items (destKeys items) (destKeys_nodup items)]
  by_cases hmem : a ∈ items
  · rw [if_pos (mem_destKeys hmem)]
  · have hz : List.count a items = 0 := List.count_eq_zero.2 hmem
    rw [hz]
    split <;> rfl

/-- The items placed in a list of boxes, in order. -/
def boxItems (boxes : List PackedBox) : List Item :=
  (boxes.map (fun b => b.placements.map (fun p => p.item))).flatten

theorem boxItems_nil : boxItems [] = [] := rfl

theorem boxItems_cons (b : PackedBox) (bs : List PackedBox) :
    boxItems (b :: bs) = b.placements.map (fun p => p.item) ++ boxItems bs := by
  simp [boxItems]

theorem boxItems_append (bs1 bs2 : List PackedBox) :
    boxItems (bs1 ++ bs2) = boxItems bs1 ++ boxItems bs2 := by
  simp [boxItems]

/-- Assembling per-destination results preserves the items up to
permutation. -/
theorem perm_assemble {f : String → List PackedBox × List Item} {g : String → List Item} :
    ∀ ds : List String, (∀ d ∈ ds, (boxItems (f d).1 ++ (f d).2).Perm (g d)) →
      (boxItems ((ds.map f).map Prod.fst).flatten ++ ((ds.map f).map Prod.snd).flatten).Perm
        (ds.map g).flatten := by
  intro ds
  induction ds with
  | nil =>
    intro _
    simp [boxItems]
  | cons d rest ih =>
    intro h
    have hd := h d (List.mem_cons_self _ _)
    have hrest := ih (fun e he => h e (List.mem_cons_of_mem _ he))
    rw [List.perm_iff_count]
    intro a
    have c1 := List.perm_iff_count.1 hd a
    have c2 := List.perm_iff_count.1 hrest a
    simp only [List.map_cons, List.flatten_cons, boxItems_append, List.count_append] at c1 c2 ⊢
    omega

/-- The boxes with the group's placed items, together with the group's
unpacked items, permute the group. -/
theorem packGroup_perm (profile : DestinationProfile) (dest : String) (group : List Item) :
    (boxItems (packGroup profile dest group).1 ++ (packGroup profile dest group).2).Perm group := by
  unfold packGroup
  exact (binLoop_perm profile dest (sortItems group).length (sortItems group)).trans
    (sortItems_perm group)

/-- A successful `pack_items` call returns exactly the assembled group
results. -/
theorem pack_items_ok {items : List Item} {sol : PackingSolution}
    (h : pack_items items = .ok sol) :
    sol.boxes = ((groupResults items).map Prod.fst).flatten ∧
    sol.unpacked_items = ((groupResults items).map Prod.snd).flatten := by
  unfold pack_items at h
  split at h
  · cases h
  · split at h
    · cases h
    · cases h
      exact ⟨rfl, rfl⟩

/-- Per-destination entry of `groupResults`, with its items permutation. -/
theorem groupResults_entry_perm (items : List Item) :
    ∀ d ∈ destKeys items,
      (boxItems ((fun d => match profile_of d with
        | some profile => packGroup profile d (items.filter (fun i => i.destination = d))
        | none => (([] : List PackedBox), items.filter (fun i => i.destination = d))) d).1 ++
        ((fun d => match profile_of d with
        | some profile => packGroup profile d (items.filter (fun i => i.destination = d))
        | none => (([] : List PackedBox), items.filter (fun i => i.destination = d))) d).2).Perm
        (items.filter (fun i => i.destination = d)) := by
  intro d _
  cases hp : profile_of d with
  | some profile =>
    simpa [hp] using packGroup_perm profile d (items.filter (fun i => i.destination = d))
  | none =>
    simp [hp, boxItems]

/-- C1: each successful run of the packing engine partitions the input
items: the items placed across all boxes followed by the unpacked items are
a permutation of the input list — every input item appears exactly once
(counting multiplicity), never duplicated, never dropped, and never both
packed and unpacked. -/
theorem pack_items_partitions_input (items : List Item) (sol : PackingSolution)
    (h : pack_items items = .ok sol) :
    (boxItems sol.boxes ++ sol.unpacked_items).Perm items := by
  obtain ⟨hb, hu⟩ := pack_items_ok h
  rw [hb, hu]
  exact (perm_assemble (destKeys items) (groupResults_entry_perm items)).trans
    (groups_flatten_perm items)

/-- Every box of a successful solution comes from some known destination's
group run. -/
theorem mem_boxes_of_ok {items : List Item} {sol : PackingSolution} {b : PackedBox}
    (h : pack_items items = .ok sol) (hb : b ∈ sol.boxes) :
    ∃ d profile, profile_of d = some profile ∧
      b ∈ (packGroup profile d (items.filter (fun i => i.destination = d))).1 := by
  rw [(pack_items_ok h).1] at hb
  rcases List.mem_flatten.1 hb with ⟨L, hL, hbL⟩
  rcases List.mem_map.1 hL with ⟨r, hr, rfl⟩
  rcases List.mem_map.1 hr with ⟨d, hd, rfl⟩
  cases hp : profile_of d with
  | some profile =>
    refine ⟨d, profile, hp, ?_⟩
    simpa [hp] using hbL
  | none =>
    simp [hp] at hbL

/-- The box properties established by the bin loop, at solution level. -/
theorem mem_boxes_props {items : List Item} {sol : PackingSolution} {b : PackedBox}
    (h : pack_items items = .ok sol) (hb : b ∈ sol.boxes) :
    ∃ profile, profile_of b.destination = some profile ∧
      b.placements ≠ [] ∧
      b.dims = bboxOf b.placements ∧
      b.weight = totalWeight b.placements + cardboard_weight (outer_dims b.dims) ∧
      (∀ p ∈ b.placements, inBounds (maxInterior profile.rule) p.pos p.dims) ∧
      List.Pairwise (fun p q => ¬ overlaps p q) b.placements ∧
      b.weight ≤ profile.maxWeight := by
  rcases mem_boxes_of_ok h hb with ⟨d, profile, hp, hmem⟩
  have hprops := binLoop_boxes profile d _ _ b hmem
  refine ⟨profile, ?_, hprops.2.1, hprops.2.2.1, hprops.2.2.2.1, hprops.2.2.2.2.1,
    hprops.2.2.2.2.2.1, hprops.2.2.2.2.2.2⟩
  rw [hprops.1]
  exact hp

/-- C2: in every returned box, each placement lies fully within the box's
trimmed interior `[0,L]×[0,W]×[0,H]`, and the placements are pairwise
non-overlapping under the open-interval test (touching faces allowed). -/
theorem pack_items_placements_legal (items : List Item) (sol : PackingSolution)
    (h : pack_items items = .ok sol) :
    ∀ b ∈ sol.boxes,
      (∀ p ∈ b.placements, inBounds b.dims p.pos p.dims) ∧
      List.Pairwise (fun p q => ¬ overlaps p q) b.placements := by
  intro b hb
  rcases mem_boxes_props h hb with ⟨profile, _, _, hdims, _, hbounds, hpair, _⟩
  refine ⟨?_, hpair⟩
  intro p hp
  have hbin := hbounds p hp
  have hfar := far_le_bboxOf hp
  rw [← hdims] at hfar
  rcases hbin with ⟨hx0, hy0, hz0, _, _, _⟩
  rcases hfar with ⟨hfx, hfy, hfz⟩
  exact ⟨hx0, hy0, hz0, hfx, hfy, hfz⟩

/-- Every registry profile has a non-negative working-volume bound. -/
theorem maxInterior_nonneg {d : String} {profile : DestinationProfile}
    (h : profile_of d = some profile) : V3.le ⟨0, 0, 0⟩ (maxInterior profile.rule) := by
  unfold profile_of at h
  split_ifs at h <;> cases h <;>
    refine ⟨?_, ?_, ?_⟩ <;> norm_num [maxInterior, thicknessCm]

/-- Interior dimensions within the working-volume bound give outer
dimensions that respect the size rule. -/
theorem sizeRuleOk_of_le_maxInterior {rule : SizeRule} {dims : V3}
    (h : V3.le dims (maxInterior rule)) : sizeRuleOk rule (outer_dims dims) := by
  cases rule with
  | symmetric s =>
    rcases h with ⟨hx, hy, hz⟩
    simp only [maxInterior] at hx hy hz
    exact ⟨by simpa [outer_dims] using by linarith, by simpa [outer_dims] using by linarith,
      by simpa [outer_dims] using by linarith⟩
  | asymmetric len cross =>
    rcases h with ⟨hx, hy, hz⟩
    simp only [maxInterior] at hx hy hz
    exact ⟨by simpa [outer_dims] using by linarith, by simpa [outer_dims] using by linarith,
      by simpa [outer_dims] using by linarith⟩

/-- C3: for every returned box, the outer dimensions add twice the cardboard
thickness (1.2 cm) to the interior on each axis, respect the destination's
size rule, and the box weight equals the item-weight sum plus the cardboard
weight of the outer dimensions and stays within the destination's weight
limit (exactly, in the rational model). -/
theorem pack_items_box_constraints (items : List Item) (sol : PackingSolution)
    (h : pack_items items = .ok sol) :
    ∀ b ∈ sol.boxes, ∃ profile,
      profile_of b.destination = some profile ∧
      outer_dims b.dims = ⟨b.dims.x + 1.2, b.dims.y + 1.2, b.dims.z + 1.2⟩ ∧
      sizeRuleOk profile.rule (outer_dims b.dims) ∧
      b.weight = totalWeight b.placements + cardboard_weight (outer_dims b.dims) ∧
      b.weight ≤ profile.maxWeight := by
  intro b hb
  rcases mem_boxes_props h hb with ⟨profile, hp, _, hdims, hweq, hbounds, _, hwle⟩
  refine ⟨profile, hp, ?_, ?_, hweq, hwle⟩
  · show outer_dims b.dims = _
    unfold outer_dims thicknessCm
    norm_num
  · refine sizeRuleOk_of_le_maxInterior ?_
    rw [hdims]
    refine bboxOf_le (maxInterior_nonneg hp) ?_
    intro p hp2
    have hbin := hbounds p hp2
    rcases hbin with ⟨_, _, _, hx, hy, hz⟩
    exact ⟨hx, hy, hz⟩

/-- C6: under the asymmetric (Japan-style) profile only the two orientations
keeping the item's length edge on the box's length axis are legal, and an
item none of whose legal orientations fits the maximum interior bin is
routed to the unpacked list — regardless of whether some forbidden
orientation (a different edge on the length axis) would fit geometrically. -/
theorem asymmetric_orientations_restricted (items : List Item) (sol : PackingSolution)
    (it : Item) (len cross maxW : ℚ)
    (h : pack_items items = .ok sol) (hmem : it ∈ items)
    (hprof : profile_of it.destination = some ⟨.asymmetric len cross, maxW⟩)
    (hfit : ∀ d0 ∈ orientationsFor (.asymmetric len cross) it,
      ¬ V3.le d0 (maxInterior (.asymmetric len cross))) :
    orientationsFor (.asymmetric len cross) it =
      [⟨it.length, it.width, it.height⟩, ⟨it.length, it.height, it.width⟩] ∧
    it ∈ sol.unpacked_items := by
  refine ⟨rfl, ?_⟩
  rw [(pack_items_ok h).2]
  have hd : it.destination ∈ destKeys items := mem_destKeys hmem
  have hnone : tryPlace (SizeRule.asymmetric len cross) (maxInterior (.asymmetric len cross))
      maxW [] [⟨0, 0, 0⟩] it = none := by
    refine tryPlace_none_of_unfit hfit ?_
    intro a ha
    rcases List.mem_singleton.1 ha with rfl
    exact ⟨le_rfl, le_rfl, le_rfl⟩
  apply List.mem_flatten.2
  refine ⟨(packGroup ⟨.asymmetric len cross, maxW⟩ it.destination
    (items.filter (fun i => i.destination = it.destination))).2, ?_, ?_⟩
  · apply List.mem_map.2
    refine ⟨packGroup ⟨.asymmetric len cross, maxW⟩ it.destination
      (items.filter (fun i => i.destination = it.destination)), ?_, rfl⟩
    unfold groupResults
    apply List.mem_map.2
    exact ⟨it.destination, hd, by rw [hprof]⟩
  · unfold packGroup
    apply binLoop_unfit_unpacked
    · exact ((sortItems_perm _).mem_iff).2 (List.mem_filter.2 ⟨hmem, by simp⟩)
    · simp [hnone]

/-- C4 (amended): in the engine model, any item with a destination absent
from the registry aborts the whole `pack_items` request with an
UnknownDestination error (no substitute profile is used); the frontend
display helper `getConstraints`, by contrast, returns its fallback
constraints record for every key outside the five known destinations. -/
theorem unknown_destination_aborts_engine (items : List Item) (i : Item)
    (hmem : i ∈ items) (hunk : profile_of i.destination = none) :
    (∃ d, pack_items items = .error (.unknownDestination d)) ∧
    (∀ d, d ≠ "澳洲" → d ≠ "美国" → d ≠ "英国" → d ≠ "德国" → d ≠ "日本" →
      UI.getConstraints d = ⟨"未知", "未知", "无约束信息。"⟩) := by
  constructor
  · have hne : items ≠ [] := List.ne_nil_of_mem hmem
    cases hfind : items.find? (fun i => (profile_of i.destination).isNone) with
    | none =>
      exfalso
      have := List.find?_eq_none.1 hfind i hmem
      rw [hunk] at this
      simp at this
    | some j =>
      refine ⟨j.destination, ?_⟩
      unfold pack_items
      rw [if_neg hne, hfind]
  · intro d h1 h2 h3 h4 h5
    unfold UI.getConstraints
    rw [if_neg h1, if_neg h2, if_neg h3, if_neg h4, if_neg h5]

/-- C4 (counterexample to the claim as stated): for the unknown destination
key "火星" the frontend's constraint lookup does return a substitute record,
and `getUnpackedReason` uses the limits invented from it (0 cm), reporting a
"长度超过0cm限制" reason instead of treating the key as an error — while the
engine registry model has no profile for it. -/
theorem unknown_destination_substitute_used :
    UI.getConstraints "火星" = ⟨"未知", "未知", "无约束信息。"⟩ ∧
    UI.getUnpackedReason ⟨"m1", "火星", 50, 40, 30, 5⟩ = "长度超过0cm限制" ∧
    profile_of "火星" = none := by
  refine ⟨?_, ?_, ?_⟩
  · rfl
  · with_unfolding_all decide
  · rfl

/-- C5: the engine model rejects an empty input list with the EmptyInput
error, and the frontend's `calculatePacking` alerts instead of invoking the
`pack_items` command when the items list is empty. -/
theorem empty_input_rejected :
    pack_items ([] : List Item) = .error .emptyInput ∧
    UI.calculatePacking [] = .alerted := by
  exact ⟨rfl, rfl⟩

/-- Membership in the destination keys is existence of an item with that
destination. -/
theorem destKeys_mem_iff {l : List Item} {d : String} :
    d ∈ destKeys l ↔ ∃ i ∈ l, i.destination = d := by
  induction l with
  | nil => simp [destKeys]
  | cons j rest ih =>
    by_cases hd : d = j.destination
    · subst hd
      simp [destKeys]
    · simp only [destKeys, List.mem_cons, List.mem_filter, ih]
      constructor
      · rintro (h | ⟨⟨i, hi, rfl⟩, _⟩)
        · exact absurd h hd
        · exact ⟨i, Or.inr hi, rfl⟩
      · rintro ⟨i, hi, rfl⟩
        rcases hi with rfl | hi2
        · exact absurd rfl hd
        · exact Or.inr ⟨⟨i, hi2, rfl⟩, by simpa using hd⟩

/-- Appending one item extends the destination keys exactly when its
destination is new. -/
theorem destKeys_append_one (l : List Item) (i : Item) :
    destKeys (l ++ [i]) =
      if i.destination ∈ destKeys l then destKeys l else destKeys l ++ [i.destination] := by
  induction l with
  | nil => simp [destKeys]
  | cons j rest ih =>
    rw [List.cons_append]
    by_cases hd : i.destination = j.destination
    · rw [if_pos (by rw [hd]; exact List.mem_cons_self _ _)]
      simp only [destKeys]
      rw [ih]
      by_cases hmem : i.destination ∈ destKeys rest
      · rw [if_pos hmem]
      · rw [if_neg hmem, List.filter_append, List.filter_singleton]
        simp [hd]
    · simp only [destKeys]
      rw [ih]
      by_cases hmem : i.destination ∈ destKeys rest
      · rw [if_pos hmem,
          if_pos (List.mem_cons_of_mem _ (List.mem_filter.2 ⟨hmem, by simpa using hd⟩))]
      · rw [if_neg hmem, if_neg ?notmem, List.filter_append, List.filter_singleton]
        · simp [hd]
        case notmem =>
          intro hc
          rcases List.mem_cons.1 hc with h | h
          · exact hd h
          · exact hmem (List.mem_filter.1 h).1

/-- The destination-keyed group map of a list. -/
def groupMap (l : List Item) : List (String × List Item) :=
  (destKeys l).map (fun d => (d, l.filter (fun i => i.destination = d)))

/-- One step of the `itemsByDestination` fold turns the group map of the
processed prefix into the group map of the prefix extended by one item. -/
theorem itemsByDestination_step (pre : List Item) (item : Item) :
    (if (groupMap pre).any (fun kv => kv.1 == item.destination) then
      (groupMap pre).map (fun kv =>
        if kv.1 == item.destination then (kv.1, kv.2 ++ [item]) else kv)
    else groupMap pre ++ [(item.destination, [item])]) = groupMap (pre ++ [item]) := by
  by_cases hmem : item.destination ∈ destKeys pre
  · rw [if_pos ?_]
    · unfold groupMap
      rw [destKeys_append_one, if_pos hmem, List.map_map]
      refine List.map_congr_left ?_
      intro d _
      simp only [Function.comp]
      by_cases hd : d = item.destination
      · subst hd
        rw [if_pos (by simp), List.filter_append, List.filter_singleton]
        simp
      · rw [if_neg (by simpa using hd), List.filter_append, List.filter_singleton]
        have : (decide (item.destination = d)) = false := by
          simpa using fun hc => hd hc.symm
        simp [this]
    · refine List.any_eq_true.2 ⟨(item.destination,
        pre.filter (fun i => i.destination = item.destination)), ?_, by simp⟩
      exact List.mem_map.2 ⟨item.destination, hmem, rfl⟩
  · rw [if_neg ?_]
    · unfold groupMap
      rw [destKeys_append_one, if_neg hmem, List.map_append]
      congr 1
      · refine List.map_congr_left ?_
        intro d hd
        have hne : item.destination ≠ d := fun hc => hmem (hc ▸ hd)
        rw [List.filter_append, List.filter_singleton]
        have : (decide (item.destination = d)) = false := by simpa using hne
        simp [this]
      · simp only [List.map_cons, List.map_nil]
        have hfil : pre.filter (fun i => i.destination = item.destination) = [] := by
          rw [List.filter_eq_nil_iff]
          intro i hi hc
          exact hmem (destKeys_mem_iff.2 ⟨i, hi, by simpa using hc⟩)
        rw [List.filter_append, hfil, List.filter_singleton]
        simp
    · intro hc
      rcases List.any_eq_true.1 hc with ⟨kv, hkv, hbeq⟩
      rcases List.mem_map.1 hkv with ⟨d, hd, rfl⟩
      have hde : d = item.destination := by simpa using hbeq
      exact hmem (hde ▸ hd)

/-- C7: the frontend's grouping of items by destination is exactly the
deterministic partition keyed by `item.destination`, with keys in order of
first appearance and each group listing its items in input order. -/
theorem itemsByDestination_partitions (items : List Item) :
    UI.itemsByDestination items =
      (destKeys items).map (fun d => (d, items.filter (fun i => i.destination = d))) := by
  suffices h : ∀ (rest pre : List Item),
      rest.foldl (fun grouped item =>
        if grouped.any (fun kv => kv.1 == item.destination) then
          grouped.map (fun kv =>
            if kv.1 == item.destination then (kv.1, kv.2 ++ [item]) else kv)
        else grouped ++ [(item.destination, [item])]) (groupMap pre) = groupMap (pre ++ rest) by
    have h0 := h items []
    simpa [UI.itemsByDestination, groupMap, destKeys] using h0
  intro rest
  induction rest with
  | nil =>
    intro pre
    simp
  | cons item rest2 ih =>
    intro pre
    rw [List.foldl_cons, itemsByDestination_step pre item, ih (pre ++ [item]),
      List.append_assoc, List.singleton_append]

/-- Folding an accumulating sum equals adding the mapped sum. -/
theorem foldl_add_map_sum (f : Item → ℚ) :
    ∀ (l : List Item) (a : ℚ), l.foldl (fun s i => s + f i) a = a + (l.map f).sum := by
  intro l
  induction l with
  | nil => intro a; simp
  | cons i rest ih =>
    intro a
    rw [List.foldl_cons, ih, List.map_cons, List.sum_cons]
    ring

/-- C8: for boxes with positive interior dimensions, the displayed
utilization is the summed item volume divided by the interior volume,
times 100. -/
theorem calculateUtilization_formula (box : UI.PackedBox)
    (_h1 : 0 < box.length) (_h2 : 0 < box.width) (_h3 : 0 < box.height) :
    UI.calculateUtilization box =
      (box.items.map (fun i => i.length * i.width * i.height)).sum /
        (box.length * box.width * box.height) * 100 := by
  simp only [UI.calculateUtilization]
  rw [foldl_add_map_sum, zero_add]

/-- C9: for an item whose destination is not one of the five known keys,
the constraint lookup falls back to the record with no limit marker, the
parsed limits are zero, and any positive-length item gets the
"长度超过0cm限制" reason — the unknown destination is never reported as
unknown. -/
theorem getUnpackedReason_unknown_destination (it : Item)
    (hdest : it.destination ∉ ["澳洲", "美国", "英国", "德国", "日本"])
    (hl : 0 < it.length) :
    UI.getConstraints it.destination = ⟨"未知", "未知", "无约束信息。"⟩ ∧
    UI.getUnpackedReason it = "长度超过0cm限制" := by
  simp only [List.mem_cons, List.not_mem_nil, or_false, not_or] at hdest
  obtain ⟨h1, h2, h3, h4, h5⟩ := hdest
  have hc : UI.getConstraints it.destination = ⟨"未知", "未知", "无约束信息。"⟩ := by
    unfold UI.getConstraints
    rw [if_neg h1, if_neg h2, if_neg h3, if_neg h4, if_neg h5]
  refine ⟨hc, ?_⟩
  unfold UI.getUnpackedReason
  rw [hc]
  have hinc : UI.strIncludes "未知" "最大" = false := rfl
  simp only [hinc, Bool.false_eq_true, if_false, if_neg h5]
  rw [if_pos (by simpa using hl)]
  rfl

/-- Folding list appends of single mapped elements equals appending the
mapped list. -/
theorem foldl_append_singleton_map (f : Nat → Item) :
    ∀ (l : List Nat) (init : List Item),
      l.foldl (fun acc i => acc ++ [f i]) init = init ++ l.map f := by
  intro l
  induction l with
  | nil => intro init; simp
  | cons n rest ih =>
    intro init
    rw [List.foldl_cons, ih, List.map_cons, List.append_assoc, List.singleton_append]

/-- A successful standard-item lookup returns the record stored under that
key, whose id field equals the key. -/
theorem lookupStandard_id {itemId : String} {s : UI.StandardItem}
    (h : UI.lookupStandard itemId = some s) : s.id = itemId := by
  unfold UI.lookupStandard at h
  cases hf : List.find? (fun kv => kv.1 == itemId) UI.standardItems with
  | none =>
    rw [hf] at h
    cases h
  | some kv =>
    rw [hf, Option.map_some'] at h
    obtain rfl := Option.some.inj h
    have h1 := List.find?_some hf
    have h2 := List.mem_of_find?_eq_some hf
    simp only [UI.standardItems, List.mem_cons, List.not_mem_nil, or_false] at h2
    rcases h2 with rfl | rfl | rfl | rfl | rfl <;> simpa using h1

/-- C10: `addItems` with a known standard item id and quantity q appends
exactly the batch of q fresh copies (ids itemId-1 … itemId-q, other fields
copied) after the unchanged existing items; a second call with the same id
repeats the same ids, so the list's ids are no longer distinct. -/
theorem addItems_appends_batch (items : List Item) (itemId : String) (q : Nat)
    (s : UI.StandardItem) (hs : UI.lookupStandard itemId = some s) (hq : 1 ≤ q) :
    UI.addItems items itemId q = some (items ++ UI.batchOf s q) ∧
    (UI.batchOf s q).length = q ∧
    (UI.batchOf s q).map (fun x => x.id) =
      (List.range q).map (fun i => itemId ++ "-" ++ toString (i + 1)) ∧
    (∀ x ∈ UI.batchOf s q, x.destination = s.destination ∧ x.length = s.length ∧
      x.width = s.width ∧ x.height = s.height ∧ x.weight = s.weight) ∧
    (∀ l2, UI.addItems (items ++ UI.batchOf s q) itemId q = some l2 →
      ¬ (l2.map (fun x => x.id)).Nodup) := by
  have hid := lookupStandard_id hs
  have heq : ∀ l0 : List Item, UI.addItems l0 itemId q = some (l0 ++ UI.batchOf s q) := by
    intro l0
    unfold UI.addItems
    rw [hs, Option.map_some']
    rw [foldl_append_singleton_map (fun i => UI.newItemOf s (i + 1))]
    rfl
  refine ⟨heq items, by simp [UI.batchOf], ?_, ?_, ?_⟩
  · rw [UI.batchOf, List.map_map]
    refine List.map_congr_left ?_
    intro n _
    simp [UI.newItemOf, hid]
  · intro x hx
    rcases List.mem_map.1 hx with ⟨n, _, rfl⟩
    exact ⟨rfl, rfl, rfl, rfl, rfl⟩
  · intro l2 hl2
    rw [heq (items ++ UI.batchOf s q)] at hl2
    obtain rfl := Option.some.inj hl2
    intro hnodup
    have hassoc : ((items ++ (UI.batchOf s q ++ UI.batchOf s q)).map (fun x => x.id)).Nodup := by
      rw [← List.append_assoc]
      exact hnodup
    rw [List.map_append] at hassoc
    have hsub := hassoc.of_append_right
    rw [List.map_append] at hsub
    have hdup : UI.newItemOf s 1 ∈ UI.batchOf s q := by
      rw [UI.batchOf]
      exact List.mem_map.2 ⟨0, List.mem_range.2 hq, rfl⟩
    exact List.disjoint_of_nodup_append hsub
      (List.mem_map.2 ⟨UI.newItemOf s 1, hdup, rfl⟩)
      (List.mem_map.2 ⟨UI.newItemOf s 1, hdup, rfl⟩)

/-! ### Concrete witnesses -/

set_option maxRecDepth 4000

/-- One Australian standard item. -/
def itAu : Item := ⟨"AUN11-ZY0009-1", "Australia", 30, 20, 8, 0.68⟩

/-- The solution the engine model computes for one Australian item. -/
def solC1 : PackingSolution :=
  ⟨[⟨"Australia", ⟨30, 20, 8⟩, [⟨itAu, ⟨0, 0, 0⟩, ⟨30, 20, 8⟩⟩], 1255469 / 1562500⟩], 4800, []⟩

theorem packAu_eq : pack_items [itAu] = .ok solC1 := by
  norm_num +decide [pack_items, groupResults, destKeys, packGroup, sortItems, insertItem,
      itemBefore, itemVolume, longestEdge, binLoop, searchOf, candsOf, unfitOf, placeItems,
      tryPlace, tryOrientList, tryAnchors, canPlaceAt, inBounds, weightOk, overlaps, totalWeight,
      bboxOf, mkBox, orientationsFor, maxInterior, profile_of, outer_dims, surface_area_m2,
      cardboard_weight, thicknessCm, unitWeightKgPerM2, V3.sup, Placement.far, insertAnchor,
      anchorBefore, List.filter, V3.mk.injEq, Item.mk.injEq, Placement.mk.injEq,
      List.forall_mem_cons, List.cons_ne_nil, List.find?, Option.isNone, itAu, solC1]

theorem pack_items_partitions_input_witness :
    pack_items [itAu] = .ok solC1 ∧
    (boxItems solC1.boxes ++ solC1.unpacked_items).Perm [itAu] :=
  ⟨packAu_eq, pack_items_partitions_input [itAu] solC1 packAu_eq⟩

/-- One UK standard item. -/
def itUk : Item := ⟨"UKB8-ZY0009-1", "UK", 30, 20, 8, 0.68⟩

/-- The solution the engine model computes for two UK items: one box with
two side-by-side placements. -/
def solC2 : PackingSolution :=
  ⟨[⟨"UK", ⟨60, 20, 8⟩,
     [⟨itUk, ⟨0, 0, 0⟩, ⟨30, 20, 8⟩⟩, ⟨itUk, ⟨30, 0, 0⟩, ⟨30, 20, 8⟩⟩],
     2471869 / 1562500⟩], 9600, []⟩

theorem packUk_eq : pack_items [itUk, itUk] = .ok solC2 := by
  norm_num +decide [pack_items, groupResults, destKeys, packGroup, sortItems, insertItem,
      itemBefore, itemVolume, longestEdge, binLoop, searchOf, candsOf, unfitOf, placeItems,
      tryPlace, tryOrientList, tryAnchors, canPlaceAt, inBounds, weightOk, overlaps, totalWeight,
      bboxOf, mkBox, orientationsFor, maxInterior, profile_of, outer_dims, surface_area_m2,
      cardboard_weight, thicknessCm, unitWeightKgPerM2, V3.sup, Placement.far, insertAnchor,
      anchorBefore, List.filter, V3.mk.injEq, Item.mk.injEq, Placement.mk.injEq,
      List.forall_mem_cons, List.cons_ne_nil, List.find?, Option.isNone, itUk, solC2]

theorem pack_items_placements_legal_witness :
    pack_items [itUk, itUk] = .ok solC2 ∧
    (∀ b ∈ solC2.boxes,
      (∀ p ∈ b.placements, inBounds b.dims p.pos p.dims) ∧
      List.Pairwise (fun p q => ¬ overlaps p q) b.placements) :=
  ⟨packUk_eq, pack_items_placements_legal [itUk, itUk] solC2 packUk_eq⟩

/-- One German standard item. -/
def itDe : Item := ⟨"DEW1-ZB0004-1", "Germany", 45, 29, 17, 1.5⟩

/-- The solution the engine model computes for one German item. -/
def solC3 : PackingSolution :=
  ⟨[⟨"Germany", ⟨45, 29, 17⟩, [⟨itDe, ⟨0, 0, 0⟩, ⟨45, 29, 17⟩⟩], 11255361 / 6250000⟩],
   22185, []⟩

theorem packDe_eq : pack_items [itDe] = .ok solC3 := by
  norm_num +decide [pack_items, groupResults, destKeys, packGroup, sortItems, insertItem,
      itemBefore, itemVolume, longestEdge, binLoop, searchOf, candsOf, unfitOf, placeItems,
      tryPlace, tryOrientList, tryAnchors, canPlaceAt, inBounds, weightOk, overlaps, totalWeight,
      bboxOf, mkBox, orientationsFor, maxInterior, profile_of, outer_dims, surface_area_m2,
      cardboard_weight, thicknessCm, unitWeightKgPerM2, V3.sup, Placement.far, insertAnchor,
      anchorBefore, List.filter, V3.mk.injEq, Item.mk.injEq, Placement.mk.injEq,
      List.forall_mem_cons, List.cons_ne_nil, List.find?, Option.isNone, itDe, solC3]

theorem pack_items_box_constraints_witness :
    pack_items [itDe] = .ok solC3 ∧
    (∀ b ∈ solC3.boxes, ∃ profile,
      profile_of b.destination = some profile ∧
      outer_dims b.dims = ⟨b.dims.x + 1.2, b.dims.y + 1.2, b.dims.z + 1.2⟩ ∧
      sizeRuleOk profile.rule (outer_dims b.dims) ∧
      b.weight = totalWeight b.placements + cardboard_weight (outer_dims b.dims) ∧
      b.weight ≤ profile.maxWeight) :=
  ⟨packDe_eq, pack_items_box_constraints [itDe] solC3 packDe_eq⟩

/-- An item with a destination key absent from the engine registry. -/
def itMars : Item := ⟨"m1", "Mars", 10, 10, 10, 1⟩

theorem unknown_destination_aborts_engine_witness :
    (itMars ∈ [itMars] ∧ profile_of itMars.destination = none) ∧
    ((∃ d, pack_items [itMars] = .error (.unknownDestination d)) ∧
     (∀ d, d ≠ "澳洲" → d ≠ "美国" → d ≠ "英国" → d ≠ "德国" → d ≠ "日本" →
       UI.getConstraints d = ⟨"未知", "未知", "无约束信息。"⟩)) :=
  ⟨⟨List.mem_cons_self _ _, rfl⟩,
   unknown_destination_aborts_engine [itMars] itMars (List.mem_cons_self _ _) rfl⟩

/-- A Japan-destined item (45×55×30) that fits in no legal orientation,
although the forbidden orientation putting its 55 cm edge on the length
axis would fit geometrically. -/
def itJp : Item := ⟨"JPY5-GR049-1", "Japan", 45, 55, 30, 0.82⟩

/-- The solution the engine model computes for that item: unpacked. -/
def solC6 : PackingSolution := ⟨[], 0, [itJp]⟩

theorem asymmetric_orientations_restricted_witness :
    (pack_items [itJp] = .ok solC6 ∧ itJp ∈ [itJp] ∧
     profile_of itJp.destination = some ⟨.asymmetric 60 50, 40⟩ ∧
     (∀ d0 ∈ orientationsFor (.asymmetric 60 50) itJp,
       ¬ V3.le d0 (maxInterior (.asymmetric 60 50))) ∧
     V3.le ⟨55, 45, 30⟩ (maxInterior (.asymmetric 60 50))) ∧
    (orientationsFor (.asymmetric 60 50) itJp =
      [⟨itJp.length, itJp.width, itJp.height⟩, ⟨itJp.length, itJp.height, itJp.width⟩] ∧
     itJp ∈ solC6.unpacked_items) :=
  ⟨⟨by with_unfolding_all decide, List.mem_cons_self _ _, rfl,
    by with_unfolding_all decide, by with_unfolding_all decide⟩,
   asymmetric_orientations_restricted [itJp] solC6 itJp 60 50 40
     (by with_unfolding_all decide) (List.mem_cons_self _ _) rfl
     (by with_unfolding_all decide)⟩

/-- A display box holding one Australian item, used to evaluate the
utilization formula. -/
def boxC8 : UI.PackedBox := ⟨[⟨"a1", "澳洲", 30, 20, 8, 0.68⟩], 30, 20, 8, 1, "澳洲"⟩

theorem calculateUtilization_formula_witness :
    ((0 : ℚ) < boxC8.length ∧ (0 : ℚ) < boxC8.width ∧ (0 : ℚ) < boxC8.height) ∧
    UI.calculateUtilization boxC8 =
      (boxC8.items.map (fun i => i.length * i.width * i.height)).sum /
        (boxC8.length * boxC8.width * boxC8.height) * 100 :=
  ⟨by with_unfolding_all decide,
   calculateUtilization_formula boxC8 (by with_unfolding_all decide)
     (by with_unfolding_all decide) (by with_unfolding_all decide)⟩

/-- An item with an unknown destination key for the display-layer lookup. -/
def itC9 : Item := ⟨"u1", "马尔斯", 3, 2, 1, 0.5⟩

theorem getUnpackedReason_unknown_destination_witness :
    (itC9.destination ∉ ["澳洲", "美国", "英国", "德国", "日本"] ∧ 0 < itC9.length) ∧
    (UI.getConstraints itC9.destination = ⟨"未知", "未知", "无约束信息。"⟩ ∧
     UI.getUnpackedReason itC9 = "长度超过0cm限制") :=
  ⟨⟨by with_unfolding_all decide, by with_unfolding_all decide⟩,
   getUnpackedReason_unknown_destination itC9 (by with_unfolding_all decide)
     (by with_unfolding_all decide)⟩

/-- The Japan standard item record of App.vue. -/
def stdJp : UI.StandardItem := ⟨"JPY5-GR049", "日本标准包装", 25, 25, 10, 0.82, "日本"⟩

theorem addItems_appends_batch_witness :
    (UI.lookupStandard "JPY5-GR049" = some stdJp ∧ 1 ≤ 2) ∧
    (UI.addItems [] "JPY5-GR049" 2 = some ([] ++ UI.batchOf stdJp 2) ∧
     (UI.batchOf stdJp 2).length = 2 ∧
     (UI.batchOf stdJp 2).map (fun x => x.id) =
       (List.range 2).map (fun i => "JPY5-GR049" ++ "-" ++ toString (i + 1)) ∧
     (∀ x ∈ UI.batchOf stdJp 2, x.destination = stdJp.destination ∧
       x.length = stdJp.length ∧ x.width = stdJp.width ∧ x.height = stdJp.height ∧
       x.weight = stdJp.weight) ∧
     (∀ l2, UI.addItems ([] ++ UI.batchOf stdJp 2) "JPY5-GR049" 2 = some l2 →
       ¬ (l2.map (fun x => x.id)).Nodup)) :=
  ⟨⟨rfl, by decide⟩,
   addItems_appends_batch [] "JPY5-GR049" 2 stdJp rfl (by decide)⟩
